import Mathlib

/-!
# Checkpoint bookkeeping and restore-reconciliation

A verification development of the checkpoint-manager design documented by the
repository's notebooks: the Tree data model, the serializer/deserializer with
schema reconciliation, the retention policy, the directory scanner / restore
facade, and the async save coordinator.
-/

namespace Ckpt

/-- Modelled from the spec: a leaf value is an array treated opaquely as
shape + dtype + raw bytes (§3, §6).  Bytes are modelled as natural-number
tokens. -/
structure LeafVal where
  dtype : Nat
  shape : List Nat
  bytes : List Nat
deriving DecidableEq, Repr

/-- Modelled from the spec: a Tree is either a leaf or a composite node — an
ordered mapping from string keys to sub-trees, or an ordered sequence of
sub-trees (§3). -/
inductive Tree where
  | leaf : LeafVal → Tree
  | mapping : List (String × Tree) → Tree
  | sequence : List Tree → Tree

/-- Length-prefixed encoding of a list of byte tokens. -/
def encodeList (l : List Nat) : List Nat := l.length :: l

/-- Length-prefixed encoding of a string as its character codes. -/
def encodeString (s : String) : List Nat :=
  s.toList.length :: s.toList.map Char.toNat

mutual
/-- Modelled from the spec: `serialize(tree) -> bytes`, a deterministic
tagged encoding (§4.3, §9: a discriminator per composite node so untyped
restore is lossless).  Tags: 0 = leaf, 1 = mapping, 2 = sequence. -/
def serializeTree : Tree → List Nat
  | .leaf v => 0 :: v.dtype :: (encodeList v.shape ++ encodeList v.bytes)
  | .mapping kvs => 1 :: kvs.length :: serializeKVs kvs
  | .sequence ts => 2 :: ts.length :: serializeSeq ts

/-- Encoding of the children of a mapping node, key then subtree. -/
def serializeKVs : List (String × Tree) → List Nat
  | [] => []
  | (k, t) :: rest => encodeString k ++ serializeTree t ++ serializeKVs rest

/-- Encoding of the children of a sequence node. -/
def serializeSeq : List Tree → List Nat
  | [] => []
  | t :: rest => serializeTree t ++ serializeSeq rest
end

/-- Top-level serializer (§4.3). -/
def serialize (t : Tree) : List Nat := serializeTree t

/-- Decode a length-prefixed list of byte tokens. -/
def decodeNatList : List Nat → Option (List Nat × List Nat)
  | n :: rest => if n ≤ rest.length then some (rest.take n, rest.drop n) else none
  | [] => none

/-- Decode a length-prefixed string. -/
def decodeString : List Nat → Option (String × List Nat)
  | n :: rest =>
      if n ≤ rest.length then
        some (String.mk ((rest.take n).map Char.ofNat), rest.drop n)
      else none
  | [] => none

mutual
/-- Fuel-based decoder for the tagged Tree encoding; the fuel only bounds
recursion depth and never changes the result on well-formed input. -/
def decodeTree : Nat → List Nat → Option (Tree × List Nat)
  | 0, _ => none
  | _ + 1, 0 :: dtype :: rest =>
      match decodeNatList rest with
      | none => none
      | some (shape, rest1) =>
        match decodeNatList rest1 with
        | none => none
        | some (bytes, rest2) => some (.leaf ⟨dtype, shape, bytes⟩, rest2)
  | fuel + 1, 1 :: count :: rest =>
      match decodeKVs fuel count rest with
      | none => none
      | some (kvs, rest1) => some (.mapping kvs, rest1)
  | fuel + 1, 2 :: count :: rest =>
      match decodeSeq fuel count rest with
      | none => none
      | some (ts, rest1) => some (.sequence ts, rest1)
  | _ + 1, _ => none
termination_by fuel input => (fuel, 0)

/-- Decode `count` mapping children. -/
def decodeKVs : Nat → Nat → List Nat → Option (List (String × Tree) × List Nat)
  | _, 0, input => some ([], input)
  | fuel, count + 1, input =>
      match decodeString input with
      | none => none
      | some (k, rest) =>
        match decodeTree fuel rest with
        | none => none
        | some (t, rest1) =>
          match decodeKVs fuel count rest1 with
          | none => none
          | some (kvs, rest2) => some ((k, t) :: kvs, rest2)
termination_by fuel count input => (fuel, count + 1)

/-- Decode `count` sequence children. -/
def decodeSeq : Nat → Nat → List Nat → Option (List Tree × List Nat)
  | _, 0, input => some ([], input)
  | fuel, count + 1, input =>
      match decodeTree fuel input with
      | none => none
      | some (t, rest) =>
        match decodeSeq fuel count rest with
        | none => none
        | some (ts, rest1) => some (t :: ts, rest1)
termination_by fuel count input => (fuel, count + 1)
end

/-- Raw (untyped) deserialization: decode the whole byte list, requiring no
trailing garbage. -/
def rawDeserialize (bytes : List Nat) : Option Tree :=
  match decodeTree (bytes.length + 1) bytes with
  | some (t, []) => some t
  | _ => none

mutual
/-- Number of nodes of a tree, the decoder's fuel measure. -/
def numNodes : Tree → Nat
  | .leaf _ => 1
  | .mapping kvs => 1 + numNodesKVs kvs
  | .sequence ts => 1 + numNodesSeq ts

/-- Total node count of mapping children. -/
def numNodesKVs : List (String × Tree) → Nat
  | [] => 0
  | (_, t) :: rest => numNodes t + numNodesKVs rest

/-- Total node count of sequence children. -/
def numNodesSeq : List Tree → Nat
  | [] => 0
  | t :: rest => numNodes t + numNodesSeq rest
end

theorem one_le_numNodes (t : Tree) : 1 ≤ numNodes t := by
  cases t <;> simp [numNodes]

theorem decodeNatList_encode (l rest : List Nat) :
    decodeNatList (encodeList l ++ rest) = some (l, rest) := by
  simp [decodeNatList, encodeList, List.take_left, List.drop_left]

theorem decodeString_encode (s : String) (rest : List Nat) :
    decodeString (encodeString s ++ rest) = some (s, rest) := by
  have hlen : s.toList.length = (s.toList.map Char.toNat).length :=
    (List.length_map _ _).symm
  have h1 : List.take s.toList.length (s.toList.map Char.toNat ++ rest)
      = s.toList.map Char.toNat := by
    rw [hlen]; exact List.take_left _ _
  have h2 : List.drop s.toList.length (s.toList.map Char.toNat ++ rest) = rest := by
    rw [hlen]; exact List.drop_left _ _
  have hco : Char.ofNat ∘ Char.toNat = id := funext Char.ofNat_toNat
  have h4 : String.mk s.toList = s := by cases s; rfl
  simp [decodeString, encodeString, List.cons_append, h1, h2, hco, h4,
    List.length_append, List.length_map, List.map_map]

mutual
theorem decodeTree_serialize (fuel : Nat) (t : Tree) (rest : List Nat)
    (h : numNodes t ≤ fuel) :
    decodeTree fuel (serializeTree t ++ rest) = some (t, rest) := by
  cases fuel with
  | zero => exact absurd h (by have := one_le_numNodes t; omega)
  | succ f =>
    cases t with
    | leaf v =>
      simp [serializeTree, decodeTree, List.cons_append, List.append_assoc,
        decodeNatList_encode]
    | mapping kvs =>
      have hk : numNodesKVs kvs ≤ f := by
        simp [numNodes] at h; omega
      simp [serializeTree, decodeTree, List.cons_append,
        decodeKVs_serialize f kvs rest hk]
    | sequence ts =>
      have hs : numNodesSeq ts ≤ f := by
        simp [numNodes] at h; omega
      simp [serializeTree, decodeTree, List.cons_append,
        decodeSeq_serialize f ts rest hs]
termination_by (fuel, 0)

theorem decodeKVs_serialize (fuel : Nat) (kvs : List (String × Tree)) (rest : List Nat)
    (h : numNodesKVs kvs ≤ fuel) :
    decodeKVs fuel kvs.length (serializeKVs kvs ++ rest) = some (kvs, rest) := by
  cases kvs with
  | nil => simp [serializeKVs, decodeKVs]
  | cons kt rest' =>
    obtain ⟨k, t⟩ := kt
    have ht : numNodes t ≤ fuel := by simp [numNodesKVs] at h; omega
    have hr : numNodesKVs rest' ≤ fuel := by simp [numNodesKVs] at h; omega
    simp [serializeKVs, decodeKVs, List.append_assoc, decodeString_encode,
      decodeTree_serialize fuel t _ ht, decodeKVs_serialize fuel rest' rest hr]
termination_by (fuel, kvs.length + 1)

theorem decodeSeq_serialize (fuel : Nat) (ts : List Tree) (rest : List Nat)
    (h : numNodesSeq ts ≤ fuel) :
    decodeSeq fuel ts.length (serializeSeq ts ++ rest) = some (ts, rest) := by
  cases ts with
  | nil => simp [serializeSeq, decodeSeq]
  | cons t rest' =>
    have ht : numNodes t ≤ fuel := by simp [numNodesSeq] at h; omega
    have hr : numNodesSeq rest' ≤ fuel := by simp [numNodesSeq] at h; omega
    simp [serializeSeq, decodeSeq, List.append_assoc,
      decodeTree_serialize fuel t _ ht, decodeSeq_serialize fuel rest' rest hr]
termination_by (fuel, ts.length + 1)
end

mutual
theorem numNodes_le_length (t : Tree) : numNodes t ≤ (serializeTree t).length := by
  cases t with
  | leaf v => simp [numNodes, serializeTree]
  | mapping kvs =>
    have := numNodesKVs_le_length kvs
    simp [numNodes, serializeTree]; omega
  | sequence ts =>
    have := numNodesSeq_le_length ts
    simp [numNodes, serializeTree]; omega

theorem numNodesKVs_le_length (kvs : List (String × Tree)) :
    numNodesKVs kvs ≤ (serializeKVs kvs).length := by
  cases kvs with
  | nil => simp [numNodesKVs, serializeKVs]
  | cons kt rest =>
    obtain ⟨k, t⟩ := kt
    have h1 := numNodes_le_length t
    have h2 := numNodesKVs_le_length rest
    simp [numNodesKVs, serializeKVs, List.length_append]; omega

theorem numNodesSeq_le_length (ts : List Tree) :
    numNodesSeq ts ≤ (serializeSeq ts).length := by
  cases ts with
  | nil => simp [numNodesSeq, serializeSeq]
  | cons t rest =>
    have h1 := numNodes_le_length t
    have h2 := numNodesSeq_le_length rest
    simp [numNodesSeq, serializeSeq, List.length_append]; omega
end

theorem rawDeserialize_serialize (t : Tree) : rawDeserialize (serialize t) = some t := by
  have hfuel : numNodes t ≤ (serialize t).length + 1 := by
    have := numNodes_le_length t
    simp [serialize] at this ⊢
    omega
  have h := decodeTree_serialize ((serialize t).length + 1) t [] hfuel
  rw [List.append_nil] at h
  simp [rawDeserialize, serialize] at h ⊢
  rw [h]

/-- One component of a path into a Tree: a mapping key or a sequence index. -/
inductive PathElem where
  | field : String → PathElem
  | index : Nat → PathElem
deriving DecidableEq, Repr

/-- Render of one path component. -/
def PathElem.render : PathElem → String
  | .field k => k
  | .index i => toString i

/-- Modelled from the spec: full dotted path such as `model.params.head`
(§4.3). -/
def renderPath (p : List PathElem) : String :=
  String.intercalate "." (p.map PathElem.render)

/-- The two directions of a schema mismatch, plus a node-kind mismatch. -/
inductive MismatchKind where
  | missingField
  | unknownField
  | kindMismatch
deriving DecidableEq, Repr

/-- Modelled from the spec: error taxonomy of §7 — `SchemaError`,
`NotFoundError`, and a decode failure for undecodable bytes. -/
inductive CkptError where
  | schemaError : MismatchKind → List PathElem → CkptError
  | notFoundError : CkptError
  | decodeError : CkptError
deriving DecidableEq, Repr

/-- Modelled from the spec: the message of a SchemaError names the mismatch
and the full path of the offending key (§4.3). -/
def CkptError.message : CkptError → String
  | .schemaError .missingField p => "missing field " ++ renderPath p
  | .schemaError .unknownField p => "unknown field " ++ renderPath p
  | .schemaError .kindMismatch p => "kind mismatch at " ++ renderPath p
  | .notFoundError => "no snapshot found"
  | .decodeError => "undecodable checkpoint bytes"

/-- First-match association lookup on mapping children. -/
def lookupKey (k : String) : List (String × Tree) → Option Tree
  | [] => none
  | (k', t) :: rest => if k' = k then some t else lookupKey k rest

/-- The first key of `l` that does not occur in `ks`, if any. -/
def firstNotIn (l ks : List String) : Option String :=
  match l with
  | [] => none
  | k :: rest => if k ∈ ks then firstNotIn rest ks else some k

mutual
/-- Modelled from the spec: the structural merge of §4.3.  Walks `target` and
the decoded `data` in lock-step, depth-first and fail-fast: a target key
absent from data raises `SchemaError` `missingField` with the full path, a
data key absent from target raises `unknownField`, leaves are coerced to the
target leaf's shape/dtype while taking the data leaf's bytes. -/
def reconcile (path : List PathElem) : Tree → Tree → Except CkptError Tree
  | .leaf tv, .leaf dv => .ok (.leaf ⟨tv.dtype, tv.shape, dv.bytes⟩)
  | .mapping tkvs, .mapping dkvs =>
      match reconcileFields path tkvs dkvs with
      | .error e => .error e
      | .ok rkvs =>
        match firstNotIn (dkvs.map Prod.fst) (tkvs.map Prod.fst) with
        | some k => .error (.schemaError .unknownField (path ++ [.field k]))
        | none => .ok (.mapping rkvs)
  | .sequence tts, .sequence dts =>
      match reconcileSeq path 0 tts dts with
      | .error e => .error e
      | .ok rs => .ok (.sequence rs)
  | _, _ => .error (.schemaError .kindMismatch path)

/-- Reconcile the children of a mapping node, in target key order. -/
def reconcileFields (path : List PathElem) :
    List (String × Tree) → List (String × Tree) → Except CkptError (List (String × Tree))
  | [], _ => .ok []
  | (k, t) :: rest, dkvs =>
      match lookupKey k dkvs with
      | none => .error (.schemaError .missingField (path ++ [.field k]))
      | some d =>
        match reconcile (path ++ [.field k]) t d with
        | .error e => .error e
        | .ok r =>
          match reconcileFields path rest dkvs with
          | .error e => .error e
          | .ok rs => .ok ((k, r) :: rs)

/-- Reconcile the children of a sequence node, index by index. -/
def reconcileSeq (path : List PathElem) (i : Nat) :
    List Tree → List Tree → Except CkptError (List Tree)
  | [], [] => .ok []
  | [], _ :: _ => .error (.schemaError .unknownField (path ++ [.index i]))
  | _ :: _, [] => .error (.schemaError .missingField (path ++ [.index i]))
  | t :: ts, d :: ds =>
      match reconcile (path ++ [.index i]) t d with
      | .error e => .error e
      | .ok r =>
        match reconcileSeq path (i + 1) ts ds with
        | .error e => .error e
        | .ok rs => .ok (r :: rs)
end

/-- Modelled from the spec: `deserialize(bytes, target)` of §4.3 — with no
target returns the raw decoded tree, with a target performs the structural
merge of `reconcile`. -/
def deserialize (bytes : List Nat) (target : Option Tree) : Except CkptError Tree :=
  match rawDeserialize bytes with
  | none => .error .decodeError
  | some raw =>
    match target with
    | none => .ok raw
    | some tgt => reconcile [] tgt raw

mutual
/-- Schema compatibility: same node kinds and the same key sets at every
composite path; leaf values are irrelevant (§8). -/
def compatible : Tree → Tree → Bool
  | .leaf _, .leaf _ => true
  | .mapping tkvs, .mapping dkvs =>
      (dkvs.map Prod.fst).all (fun k => (lookupKey k tkvs).isSome) &&
      compatibleFields tkvs dkvs
  | .sequence tts, .sequence dts => compatibleSeq tts dts
  | _, _ => false

/-- Every target key occurs in the data, with compatible children. -/
def compatibleFields : List (String × Tree) → List (String × Tree) → Bool
  | [], _ => true
  | (k, t) :: rest, dkvs =>
      (match lookupKey k dkvs with
       | none => false
       | some d => compatible t d) &&
      compatibleFields rest dkvs

/-- Sequences are compatible when they have the same length and compatible
elements. -/
def compatibleSeq : List Tree → List Tree → Bool
  | [], [] => true
  | [], _ :: _ => false
  | _ :: _, [] => false
  | t :: ts, d :: ds => compatible t d && compatibleSeq ts ds
end

mutual
/-- Two trees with the same key structure carry byte-identical leaf values at
every corresponding path. -/
def agreeBytes : Tree → Tree → Bool
  | .leaf a, .leaf b => a.bytes = b.bytes
  | .mapping akvs, .mapping bkvs =>
      (bkvs.map Prod.fst).all (fun k => (lookupKey k akvs).isSome) &&
      agreeBytesFields akvs bkvs
  | .sequence ats, .sequence bts => agreeBytesSeq ats bts
  | _, _ => false

/-- Field-wise byte agreement of mapping children. -/
def agreeBytesFields : List (String × Tree) → List (String × Tree) → Bool
  | [], _ => true
  | (k, a) :: rest, bkvs =>
      (match lookupKey k bkvs with
       | none => false
       | some b => agreeBytes a b) &&
      agreeBytesFields rest bkvs

/-- Element-wise byte agreement of sequence children. -/
def agreeBytesSeq : List Tree → List Tree → Bool
  | [], [] => true
  | [], _ :: _ => false
  | _ :: _, [] => false
  | a :: as_, b :: bs => agreeBytes a b && agreeBytesSeq as_ bs
end

mutual
/-- Well-formed tree: every mapping node has pairwise distinct keys (§3: a
dictionary has at most one entry per key). -/
def wfTree : Tree → Bool
  | .leaf _ => true
  | .mapping kvs => (kvs.map Prod.fst).Nodup ∧ wfKVs kvs
  | .sequence ts => wfSeq ts

/-- Well-formedness of mapping children. -/
def wfKVs : List (String × Tree) → Bool
  | [] => true
  | (_, t) :: rest => wfTree t && wfKVs rest

/-- Well-formedness of sequence children. -/
def wfSeq : List Tree → Bool
  | [] => true
  | t :: rest => wfTree t && wfSeq rest
end

/-- The immediate child of a tree along one path component. -/
def child : Tree → PathElem → Option Tree
  | .mapping kvs, .field k => lookupKey k kvs
  | .sequence ts, .index i => ts.get? i
  | _, _ => none

/-- The subtree of a tree at a path, if the path exists. -/
def subtreeAt : Tree → List PathElem → Option Tree
  | t, [] => some t
  | t, e :: rest =>
    match child t e with
    | none => none
    | some c => subtreeAt c rest

/-- Modelled from the spec: `should_save(existing_steps, new_step, overwrite)`
of §4.2 — false iff `overwrite` is false and some existing step is ≥ the new
step. -/
def should_save (existing : List Nat) (newStep : Nat) (overwrite : Bool) : Bool :=
  overwrite || existing.all (fun s => s < newStep)

/-- Modelled from the spec: `snapshots_to_evict(existing_steps_after_save,
keep)` of §4.2 — the oldest-by-step snapshots in excess of `keep`, with a
zero or negative `keep` meaning keep all. -/
def snapshots_to_evict (existing : List Nat) (keep : Int) : List Nat :=
  if keep ≤ 0 then []
  else
    let sorted := List.insertionSort (· ≤ ·) existing
    sorted.take (sorted.length - keep.toNat)

/-- Modelled from the spec: a checkpoint directory (§3) — on-disk snapshots
as (step, serialized bytes) entries, at most one per step. -/
abbrev Dir := List (Nat × List Nat)

/-- Steps present in a directory. -/
def listSteps (dir : Dir) : List Nat := dir.map Prod.fst

/-- Modelled from the spec: the Directory Scanner's `latest` (§4.1) — the
maximum-step entry, or none when no snapshot exists. -/
def latest : Dir → Option (Nat × List Nat)
  | [] => none
  | e :: rest =>
    match latest rest with
    | none => some e
    | some m => if m.1 ≤ e.1 then some e else some m

/-- Lookup of the bytes stored for one step. -/
def lookupStep (s : Nat) : Dir → Option (List Nat)
  | [] => none
  | (s', b) :: rest => if s' = s then some b else lookupStep s rest

/-- Modelled from the spec: the snapshot path `<checkpoint_dir>/<prefix><step>`
(§6). -/
def pathFor (dirName pfx : String) (step : Nat) : String :=
  dirName ++ "/" ++ pfx ++ toString step

/-- The library's default snapshot name stem. -/
def defaultStem : String := "checkpoint_"

/-- Outcome of one facade save: the written path plus the directory and the
non-fatal warnings, or a rejected no-op. -/
structure SaveResult where
  outcome : Option String
  dir : Dir
  warnings : List String

/-- Modelled from the spec: the facade `save` of §4.5 with best-effort
eviction (§4.2): applies `should_save`; if accepted, writes the serialized
tree at the step-stamped path, then deletes the snapshots selected by
`snapshots_to_evict`, downgrading each failed deletion (injected through
`deleteFails`) to a logged warning. -/
def save (dirName pfx : String) (dir : Dir) (tree : Tree) (step : Nat)
    (overwrite : Bool) (keep : Int) (deleteFails : Nat → Bool) : SaveResult :=
  if should_save (listSteps dir) step overwrite then
    let written : Dir := dir.filter (fun e => e.1 ≠ step) ++ [(step, serialize tree)]
    let evict := snapshots_to_evict (listSteps written) keep
    let deleted := evict.filter (fun s => ¬ deleteFails s)
    let warnings := (evict.filter (fun s => deleteFails s)).map
      (fun s => "failed to delete snapshot " ++ toString s)
    { outcome := some (pathFor dirName pfx step)
      dir := written.filter (fun e => e.1 ∉ deleted)
      warnings := warnings }
  else
    { outcome := none, dir := dir, warnings := [] }

/-- Modelled from the spec: the facade `restore(dir, step, target)` of §4.5 —
with no step uses the Directory Scanner's `latest`, failing with
`NotFoundError` when no snapshot exists; delegates to `deserialize`. -/
def restore (dir : Dir) (step : Option Nat) (target : Option Tree) :
    Except CkptError Tree :=
  match step with
  | some s =>
    match lookupStep s dir with
    | none => .error .notFoundError
    | some bytes => deserialize bytes target
  | none =>
    match latest dir with
    | none => .error .notFoundError
    | some e => deserialize e.2 target

/-- An observable write event of the Async Save Coordinator. -/
inductive Ev where
  | writeBegin : Nat → Ev
  | writeEnd : Nat → Ev
deriving DecidableEq, Repr

/-- State of one Async Save Coordinator: the save requests not yet scheduled
(in call order), the in-flight background save if any, and the trace of write
events so far. -/
structure CoordState where
  pending : List Nat
  inflight : Option Nat
  trace : List Ev
deriving DecidableEq, Repr

/-- Modelled from the spec: the coordinator state machine of §4.4 —
`IDLE -> SAVING -> IDLE`, where scheduling the next `save_async` requires the
coordinator to be idle because the call path forces a synchronous
`wait_previous()` first, and the background task may finish at any time. -/
inductive CoordStep : CoordState → CoordState → Prop where
  | schedule (r : Nat) (rs : List Nat) (tr : List Ev) :
      CoordStep ⟨r :: rs, none, tr⟩ ⟨rs, some r, tr ++ [.writeBegin r]⟩
  | finish (rs : List Nat) (r : Nat) (tr : List Ev) :
      CoordStep ⟨rs, some r, tr⟩ ⟨rs, none, tr ++ [.writeEnd r]⟩

/-- The initial coordinator state for a list of sequential `save_async`
calls. -/
def initCoord (reqs : List Nat) : CoordState := ⟨reqs, none, []⟩

/-- States the coordinator can reach by any interleaving of scheduling and
background completions. -/
def Reaches (s s' : CoordState) : Prop := Relation.ReflTransGen CoordStep s s'

/-- The fully serialized trace of a list of completed saves. -/
def canonicalTrace (done : List Nat) : List Ev :=
  (done.map (fun r => [Ev.writeBegin r, Ev.writeEnd r])).flatten

theorem lookupKey_isSome_iff (k : String) (kvs : List (String × Tree)) :
    (lookupKey k kvs).isSome = true ↔ k ∈ kvs.map Prod.fst := by
  induction kvs with
  | nil => simp [lookupKey]
  | cons kt rest ih =>
    obtain ⟨k', t⟩ := kt
    by_cases h : k' = k <;> simp [lookupKey, h, ih]
    exact fun hk => (h hk.symm).elim

theorem lookupKey_eq_none_iff (k : String) (kvs : List (String × Tree)) :
    lookupKey k kvs = none ↔ k ∉ kvs.map Prod.fst := by
  rw [← lookupKey_isSome_iff]
  cases lookupKey k kvs <;> simp

theorem firstNotIn_eq_none_iff (l ks : List String) :
    firstNotIn l ks = none ↔ ∀ k ∈ l, k ∈ ks := by
  induction l with
  | nil => simp [firstNotIn]
  | cons k rest ih =>
    by_cases h : k ∈ ks <;> simp [firstNotIn, h, ih]

theorem firstNotIn_eq_some (l ks : List String) (k : String)
    (h : firstNotIn l ks = some k) : k ∈ l ∧ k ∉ ks := by
  induction l with
  | nil => simp [firstNotIn] at h
  | cons k' rest ih =>
    by_cases hk : k' ∈ ks
    · simp [firstNotIn, hk] at h
      obtain ⟨h1, h2⟩ := ih h
      exact ⟨List.mem_cons_of_mem _ h1, h2⟩
    · simp [firstNotIn, hk] at h
      subst h
      exact ⟨List.mem_cons_self _ _, hk⟩

theorem exceptIsOk_error {α : Type} (e : CkptError) :
    (Except.error e : Except CkptError α).isOk = false := rfl

theorem exceptIsOk_ok {α : Type} (a : α) :
    (Except.ok a : Except CkptError α).isOk = true := rfl

mutual
theorem reconcile_isOk_iff (path : List PathElem) (t d : Tree) :
    (reconcile path t d).isOk = true ↔ compatible t d = true := by
  cases t with
  | leaf tv =>
    cases d <;> simp [reconcile, compatible, exceptIsOk_error, exceptIsOk_ok]
  | mapping tkvs =>
    cases d with
    | leaf dv => simp [reconcile, compatible, exceptIsOk_error]
    | sequence dts => simp [reconcile, compatible, exceptIsOk_error]
    | mapping dkvs =>
      have hf := reconcileFields_isOk_iff path tkvs dkvs
      simp only [reconcile, compatible]
      cases hrf : reconcileFields path tkvs dkvs with
      | error e =>
        have hcf : compatibleFields tkvs dkvs = false := by
          rw [hrf] at hf
          simpa [exceptIsOk_error] using hf.symm
        simp [hrf, exceptIsOk_error, hcf]
      | ok rkvs =>
        have hcf : compatibleFields tkvs dkvs = true := by
          rw [hrf] at hf
          simpa [exceptIsOk_ok] using hf
        cases hfn : firstNotIn (dkvs.map Prod.fst) (tkvs.map Prod.fst) with
        | some k =>
          obtain ⟨h1, h2⟩ := firstNotIn_eq_some _ _ _ hfn
          have hall : (dkvs.map Prod.fst).all
              (fun k => (lookupKey k tkvs).isSome) = false := by
            rw [List.all_eq_false]
            refine ⟨k, h1, ?_⟩
            rw [lookupKey_isSome_iff]
            exact h2
          simp [hrf, hfn, exceptIsOk_error, hall]
        | none =>
          have hall : (dkvs.map Prod.fst).all
              (fun k => (lookupKey k tkvs).isSome) = true := by
            rw [List.all_eq_true]
            intro k hk
            rw [lookupKey_isSome_iff]
            exact (firstNotIn_eq_none_iff _ _).mp hfn k hk
          simp [hrf, hfn, exceptIsOk_ok, hall, hcf]
  | sequence tts =>
    cases d with
    | leaf dv => simp [reconcile, compatible, exceptIsOk_error]
    | mapping dkvs => simp [reconcile, compatible, exceptIsOk_error]
    | sequence dts =>
      have hs := reconcileSeq_isOk_iff path 0 tts dts
      simp only [reconcile, compatible]
      cases hrs : reconcileSeq path 0 tts dts with
      | error e =>
        rw [hrs] at hs
        simp only [exceptIsOk_error] at hs
        simp [hrs, exceptIsOk_error, ← hs]
      | ok rs =>
        rw [hrs] at hs
        simp only [exceptIsOk_ok] at hs
        simp [hrs, exceptIsOk_ok, ← hs]
termination_by (sizeOf t, 0)

theorem reconcileFields_isOk_iff (path : List PathElem)
    (tkvs dkvs : List (String × Tree)) :
    (reconcileFields path tkvs dkvs).isOk = true ↔
      compatibleFields tkvs dkvs = true := by
  cases tkvs with
  | nil => simp [reconcileFields, compatibleFields, exceptIsOk_ok]
  | cons kt rest =>
    obtain ⟨k, t⟩ := kt
    simp only [reconcileFields, compatibleFields]
    cases hl : lookupKey k dkvs with
    | none => simp [exceptIsOk_error]
    | some d =>
      have ht := reconcile_isOk_iff (path ++ [.field k]) t d
      have hr := reconcileFields_isOk_iff path rest dkvs
      cases hrc : reconcile (path ++ [.field k]) t d with
      | error e =>
        rw [hrc] at ht
        simp only [exceptIsOk_error] at ht
        simp [hrc, exceptIsOk_error, ← ht]
      | ok r =>
        rw [hrc] at ht
        simp only [exceptIsOk_ok] at ht
        cases hrf : reconcileFields path rest dkvs with
        | error e =>
          rw [hrf] at hr
          simp only [exceptIsOk_error] at hr
          simp [hrc, hrf, exceptIsOk_error, ← ht, ← hr]
        | ok rs =>
          rw [hrf] at hr
          simp only [exceptIsOk_ok] at hr
          simp [hrc, hrf, exceptIsOk_ok, ← ht, ← hr]
termination_by (sizeOf tkvs, 1)

theorem reconcileSeq_isOk_iff (path : List PathElem) (i : Nat) (ts ds : List Tree) :
    (reconcileSeq path i ts ds).isOk = true ↔ compatibleSeq ts ds = true := by
  cases ts with
  | nil => cases ds <;> simp [reconcileSeq, compatibleSeq, exceptIsOk_error, exceptIsOk_ok]
  | cons t rest =>
    cases ds with
    | nil => simp [reconcileSeq, compatibleSeq, exceptIsOk_error]
    | cons d drest =>
      have ht := reconcile_isOk_iff (path ++ [.index i]) t d
      have hr := reconcileSeq_isOk_iff path (i + 1) rest drest
      simp only [reconcileSeq, compatibleSeq]
      cases hrc : reconcile (path ++ [.index i]) t d with
      | error e =>
        rw [hrc] at ht
        simp only [exceptIsOk_error] at ht
        simp [hrc, exceptIsOk_error, ← ht]
      | ok r =>
        rw [hrc] at ht
        simp only [exceptIsOk_ok] at ht
        cases hrs : reconcileSeq path (i + 1) rest drest with
        | error e =>
          rw [hrs] at hr
          simp only [exceptIsOk_error] at hr
          simp [hrc, hrs, exceptIsOk_error, ← ht, ← hr]
        | ok rs =>
          rw [hrs] at hr
          simp only [exceptIsOk_ok] at hr
          simp [hrc, hrs, exceptIsOk_ok, ← ht, ← hr]
termination_by (sizeOf ts, 1)
end

theorem subtreeAt_nil (t : Tree) : subtreeAt t [] = some t := rfl

theorem subtreeAt_mapping_cons (kvs : List (String × Tree)) (k : String)
    (rest : List PathElem) :
    subtreeAt (Tree.mapping kvs) (.field k :: rest) =
      match lookupKey k kvs with
      | none => none
      | some c => subtreeAt c rest := rfl

theorem subtreeAt_sequence_cons (ts : List Tree) (i : Nat) (rest : List PathElem) :
    subtreeAt (Tree.sequence ts) (.index i :: rest) =
      match ts.get? i with
      | none => none
      | some c => subtreeAt c rest := rfl

theorem wfTree_mapping (kvs : List (String × Tree)) (h : wfTree (.mapping kvs) = true) :
    (kvs.map Prod.fst).Nodup ∧ wfKVs kvs = true := by
  simpa [wfTree] using h

theorem wfTree_sequence (ts : List Tree) (h : wfTree (.sequence ts) = true) :
    wfSeq ts = true := by
  simpa [wfTree] using h

theorem reconcileErrorSoundAux : ∀ n : Nat,
    (∀ (path : List PathElem) (t d : Tree) (kind : MismatchKind) (p : List PathElem),
      sizeOf t ≤ n → wfTree t = true →
      reconcile path t d = .error (.schemaError kind p) →
      ∃ suffix, p = path ++ suffix ∧
        (kind = .missingField →
          (subtreeAt t suffix).isSome = true ∧ subtreeAt d suffix = none) ∧
        (kind = .unknownField →
          (subtreeAt d suffix).isSome = true ∧ subtreeAt t suffix = none)) ∧
    (∀ (path : List PathElem) (tkvs dkvs : List (String × Tree)) (kind : MismatchKind)
      (p : List PathElem),
      sizeOf tkvs ≤ n → (tkvs.map Prod.fst).Nodup → wfKVs tkvs = true →
      reconcileFields path tkvs dkvs = .error (.schemaError kind p) →
      ∃ k' s', p = path ++ (.field k' :: s') ∧ k' ∈ tkvs.map Prod.fst ∧
        (kind = .missingField →
          (subtreeAt (Tree.mapping tkvs) (.field k' :: s')).isSome = true ∧
          subtreeAt (Tree.mapping dkvs) (.field k' :: s') = none) ∧
        (kind = .unknownField →
          (subtreeAt (Tree.mapping dkvs) (.field k' :: s')).isSome = true ∧
          subtreeAt (Tree.mapping tkvs) (.field k' :: s') = none)) ∧
    (∀ (path : List PathElem) (i : Nat) (ts ds : List Tree) (kind : MismatchKind)
      (p : List PathElem),
      sizeOf ts ≤ n → wfSeq ts = true →
      reconcileSeq path i ts ds = .error (.schemaError kind p) →
      ∃ j s', p = path ++ (.index (i + j) :: s') ∧
        (kind = .missingField →
          (subtreeAt (Tree.sequence ts) (.index j :: s')).isSome = true ∧
          subtreeAt (Tree.sequence ds) (.index j :: s') = none) ∧
        (kind = .unknownField →
          (subtreeAt (Tree.sequence ds) (.index j :: s')).isSome = true ∧
          subtreeAt (Tree.sequence ts) (.index j :: s') = none)) := by
  intro n
  induction n using Nat.strong_induction_on with
  | _ n ih =>
    refine ⟨?_, ?_, ?_⟩
    · intro path t d kind p hsz hwf herr
      cases t with
      | leaf tv =>
        cases d with
        | leaf dv => simp [reconcile] at herr
        | mapping dkvs =>
          simp [reconcile] at herr
          obtain ⟨hk, hp⟩ := herr
          exact ⟨[], by simp [hp], by simp [← hk], by simp [← hk]⟩
        | sequence dts =>
          simp [reconcile] at herr
          obtain ⟨hk, hp⟩ := herr
          exact ⟨[], by simp [hp], by simp [← hk], by simp [← hk]⟩
      | mapping tkvs =>
        cases d with
        | leaf dv =>
          simp [reconcile] at herr
          obtain ⟨hk, hp⟩ := herr
          exact ⟨[], by simp [hp], by simp [← hk], by simp [← hk]⟩
        | sequence dts =>
          simp [reconcile] at herr
          obtain ⟨hk, hp⟩ := herr
          exact ⟨[], by simp [hp], by simp [← hk], by simp [← hk]⟩
        | mapping dkvs =>
          obtain ⟨hnd, hwfk⟩ := wfTree_mapping tkvs hwf
          have hlt : sizeOf tkvs < n := by
            have hx : sizeOf tkvs < sizeOf (Tree.mapping tkvs) := by simp
            omega
          simp only [reconcile] at herr
          cases hrf : reconcileFields path tkvs dkvs with
          | error e =>
            rw [hrf] at herr
            simp only at herr
            cases herr
            obtain ⟨k', s', hp, hk', hm, hu⟩ :=
              (ih (sizeOf tkvs) hlt).2.1 path tkvs dkvs kind p (le_refl _) hnd hwfk hrf
            exact ⟨.field k' :: s', hp, hm, hu⟩
          | ok rkvs =>
            rw [hrf] at herr
            simp only at herr
            cases hfn : firstNotIn (dkvs.map Prod.fst) (tkvs.map Prod.fst) with
            | none => rw [hfn] at herr; simp at herr
            | some k =>
              rw [hfn] at herr
              simp only [Except.error.injEq, CkptError.schemaError.injEq] at herr
              obtain ⟨hkind, hp⟩ := herr
              obtain ⟨h1, h2⟩ := firstNotIn_eq_some _ _ _ hfn
              refine ⟨[.field k], hp.symm, ?_, ?_⟩
              · intro h; rw [← hkind] at h; cases h
              · intro _
                constructor
                · rw [subtreeAt_mapping_cons]
                  have hsome : (lookupKey k dkvs).isSome = true :=
                    (lookupKey_isSome_iff _ _).mpr h1
                  cases hl : lookupKey k dkvs with
                  | none => rw [hl] at hsome; simp at hsome
                  | some c => simp [subtreeAt_nil]
                · rw [subtreeAt_mapping_cons]
                  rw [(lookupKey_eq_none_iff _ _).mpr h2]
      | sequence tts =>
        cases d with
        | leaf dv =>
          simp [reconcile] at herr
          obtain ⟨hk, hp⟩ := herr
          exact ⟨[], by simp [hp], by simp [← hk], by simp [← hk]⟩
        | mapping dkvs =>
          simp [reconcile] at herr
          obtain ⟨hk, hp⟩ := herr
          exact ⟨[], by simp [hp], by simp [← hk], by simp [← hk]⟩
        | sequence dts =>
          have hwfs := wfTree_sequence tts hwf
          have hlt : sizeOf tts < n := by
            have hx : sizeOf tts < sizeOf (Tree.sequence tts) := by simp
            omega
          simp only [reconcile] at herr
          cases hrs : reconcileSeq path 0 tts dts with
          | error e =>
            rw [hrs] at herr
            simp only at herr
            cases herr
            obtain ⟨j, s', hp, hm, hu⟩ :=
              (ih (sizeOf tts) hlt).2.2 path 0 tts dts kind p (le_refl _) hwfs hrs
            rw [Nat.zero_add] at hp
            exact ⟨.index j :: s', hp, hm, hu⟩
          | ok rs => rw [hrs] at herr; simp at herr
    · intro path tkvs dkvs kind p hsz hnd hwf herr
      cases tkvs with
      | nil => simp [reconcileFields] at herr
      | cons kt rest =>
        obtain ⟨k, t⟩ := kt
        have hwt : wfTree t = true := by simp [wfKVs] at hwf; exact hwf.1
        have hwr : wfKVs rest = true := by simp [wfKVs] at hwf; exact hwf.2
        have hknotin : k ∉ rest.map Prod.fst := by
          simp only [List.map_cons, List.nodup_cons] at hnd
          exact hnd.1
        have hndr : (rest.map Prod.fst).Nodup := by
          simp only [List.map_cons, List.nodup_cons] at hnd
          exact hnd.2
        have hlt_t : sizeOf t < n := by
          have hx : sizeOf t < sizeOf ((k, t) :: rest) := by simp <;> omega
          omega
        have hlt_r : sizeOf rest < n := by
          have hx : sizeOf rest < sizeOf ((k, t) :: rest) := by simp <;> omega
          omega
        simp only [reconcileFields] at herr
        cases hl : lookupKey k dkvs with
        | none =>
          rw [hl] at herr
          simp only [Except.error.injEq, CkptError.schemaError.injEq] at herr
          obtain ⟨hkind, hp⟩ := herr
          refine ⟨k, [], hp.symm, List.mem_cons_self _ _, ?_, ?_⟩
          · intro _
            constructor
            · rw [subtreeAt_mapping_cons]
              simp [lookupKey, subtreeAt_nil]
            · rw [subtreeAt_mapping_cons, hl]
          · intro h; rw [← hkind] at h; cases h
        | some dchild =>
          rw [hl] at herr
          simp only at herr
          cases hrc : reconcile (path ++ [.field k]) t dchild with
          | error e =>
            rw [hrc] at herr
            simp only at herr
            cases herr
            obtain ⟨suffix, hp, hm, hu⟩ :=
              (ih (sizeOf t) hlt_t).1 (path ++ [.field k]) t dchild kind p (le_refl _) hwt hrc
            refine ⟨k, suffix, by simp [hp], List.mem_cons_self _ _, ?_, ?_⟩
            · intro hmk
              obtain ⟨ha, hb⟩ := hm hmk
              constructor
              · rw [subtreeAt_mapping_cons]
                simp only [lookupKey, if_pos rfl]
                exact ha
              · rw [subtreeAt_mapping_cons, hl]
                exact hb
            · intro huk
              obtain ⟨ha, hb⟩ := hu huk
              constructor
              · rw [subtreeAt_mapping_cons, hl]
                exact ha
              · rw [subtreeAt_mapping_cons]
                simp only [lookupKey, if_pos rfl]
                exact hb
          | ok r =>
            rw [hrc] at herr
            cases hrf : reconcileFields path rest dkvs with
            | error e =>
              rw [hrf] at herr
              simp only at herr
              cases herr
              obtain ⟨k', s', hp, hk', hm, hu⟩ :=
                (ih (sizeOf rest) hlt_r).2.1 path rest dkvs kind p (le_refl _) hndr hwr hrf
              have hkk : k' ≠ k := fun h => hknotin (h ▸ hk')
              have hstep : ∀ q, subtreeAt (Tree.mapping ((k, t) :: rest)) (.field k' :: q) =
                  subtreeAt (Tree.mapping rest) (.field k' :: q) := by
                intro q
                rw [subtreeAt_mapping_cons, subtreeAt_mapping_cons]
                simp [lookupKey, hkk.symm]
              refine ⟨k', s', hp, List.mem_cons_of_mem _ hk', ?_, ?_⟩
              · intro hmk
                obtain ⟨ha, hb⟩ := hm hmk
                exact ⟨by rw [hstep]; exact ha, hb⟩
              · intro huk
                obtain ⟨ha, hb⟩ := hu huk
                exact ⟨ha, by rw [hstep]; exact hb⟩
            | ok rs => rw [hrf] at herr; simp at herr
    · intro path i ts ds kind p hsz hwf herr
      cases ts with
      | nil =>
        cases ds with
        | nil => simp [reconcileSeq] at herr
        | cons d drest =>
          simp only [reconcileSeq, Except.error.injEq, CkptError.schemaError.injEq] at herr
          obtain ⟨hkind, hp⟩ := herr
          refine ⟨0, [], by simp [hp.symm], ?_, ?_⟩
          · intro h; rw [← hkind] at h; cases h
          · intro _
            exact ⟨by rw [subtreeAt_sequence_cons]; simp [subtreeAt_nil],
              by rw [subtreeAt_sequence_cons]; simp⟩
      | cons t rest =>
        have hwt : wfTree t = true := by simp [wfSeq] at hwf; exact hwf.1
        have hwr : wfSeq rest = true := by simp [wfSeq] at hwf; exact hwf.2
        have hlt_t : sizeOf t < n := by
          have hx : sizeOf t < sizeOf (t :: rest) := by simp <;> omega
          omega
        have hlt_r : sizeOf rest < n := by
          have hx : sizeOf rest < sizeOf (t :: rest) := by simp <;> omega
          omega
        cases ds with
        | nil =>
          simp only [reconcileSeq, Except.error.injEq, CkptError.schemaError.injEq] at herr
          obtain ⟨hkind, hp⟩ := herr
          refine ⟨0, [], by simp [hp.symm], ?_, ?_⟩
          · intro _
            exact ⟨by rw [subtreeAt_sequence_cons]; simp [subtreeAt_nil],
              by rw [subtreeAt_sequence_cons]; simp⟩
          · intro h; rw [← hkind] at h; cases h
        | cons d drest =>
          simp only [reconcileSeq] at herr
          cases hrc : reconcile (path ++ [.index i]) t d with
          | error e =>
            rw [hrc] at herr
            simp only at herr
            cases herr
            obtain ⟨suffix, hp, hm, hu⟩ :=
              (ih (sizeOf t) hlt_t).1 (path ++ [.index i]) t d kind p (le_refl _) hwt hrc
            refine ⟨0, suffix, by simp [hp], ?_, ?_⟩
            · intro hmk
              obtain ⟨ha, hb⟩ := hm hmk
              exact ⟨by rw [subtreeAt_sequence_cons]; simpa using ha,
                by rw [subtreeAt_sequence_cons]; simpa using hb⟩
            · intro huk
              obtain ⟨ha, hb⟩ := hu huk
              exact ⟨by rw [subtreeAt_sequence_cons]; simpa using ha,
                by rw [subtreeAt_sequence_cons]; simpa using hb⟩
          | ok r =>
            rw [hrc] at herr
            cases hrs : reconcileSeq path (i + 1) rest drest with
            | error e =>
              rw [hrs] at herr
              simp only at herr
              cases herr
              obtain ⟨j, s', hp, hm, hu⟩ :=
                (ih (sizeOf rest) hlt_r).2.2 path (i + 1) rest drest kind p (le_refl _) hwr hrs
              have hidx : i + 1 + j = i + (j + 1) := by omega
              refine ⟨j + 1, s', by rw [hp, hidx], ?_, ?_⟩
              · intro hmk
                obtain ⟨ha, hb⟩ := hm hmk
                exact ⟨by rw [subtreeAt_sequence_cons]; simpa [subtreeAt_sequence_cons] using ha,
                  by rw [subtreeAt_sequence_cons]; simpa [subtreeAt_sequence_cons] using hb⟩
              · intro huk
                obtain ⟨ha, hb⟩ := hu huk
                exact ⟨by rw [subtreeAt_sequence_cons]; simpa [subtreeAt_sequence_cons] using ha,
                  by rw [subtreeAt_sequence_cons]; simpa [subtreeAt_sequence_cons] using hb⟩
            | ok rs => rw [hrs] at herr; simp at herr

theorem reconcile_error_sound (path : List PathElem) (t d : Tree)
    (kind : MismatchKind) (p : List PathElem) (hwf : wfTree t = true)
    (herr : reconcile path t d = .error (.schemaError kind p)) :
    ∃ suffix, p = path ++ suffix ∧
      (kind = .missingField →
        (subtreeAt t suffix).isSome = true ∧ subtreeAt d suffix = none) ∧
      (kind = .unknownField →
        (subtreeAt d suffix).isSome = true ∧ subtreeAt t suffix = none) :=
  (reconcileErrorSoundAux (sizeOf t)).1 path t d kind p (le_refl _) hwf herr

/-- Byte-preservation of reconciliation: whenever the merge succeeds, the
result carries the data tree's leaf bytes at every corresponding path. -/
theorem reconcileAgreeAux : ∀ n : Nat,
    (∀ (path : List PathElem) (t d r : Tree), sizeOf t ≤ n →
      reconcile path t d = .ok r → agreeBytes r d = true) ∧
    (∀ (path : List PathElem) (tkvs dkvs rkvs : List (String × Tree)),
      sizeOf tkvs ≤ n → reconcileFields path tkvs dkvs = .ok rkvs →
      rkvs.map Prod.fst = tkvs.map Prod.fst ∧ agreeBytesFields rkvs dkvs = true) ∧
    (∀ (path : List PathElem) (i : Nat) (ts ds rs : List Tree), sizeOf ts ≤ n →
      reconcileSeq path i ts ds = .ok rs → agreeBytesSeq rs ds = true) := by
  intro n
  induction n using Nat.strong_induction_on with
  | _ n ih =>
    refine ⟨?_, ?_, ?_⟩
    · intro path t d r hsz hok
      cases t with
      | leaf tv =>
        cases d with
        | leaf dv =>
          simp [reconcile] at hok
          subst hok
          simp [agreeBytes]
        | mapping dkvs => simp [reconcile] at hok
        | sequence dts => simp [reconcile] at hok
      | mapping tkvs =>
        cases d with
        | leaf dv => simp [reconcile] at hok
        | sequence dts => simp [reconcile] at hok
        | mapping dkvs =>
          have hlt : sizeOf tkvs < n := by
            have hx : sizeOf tkvs < sizeOf (Tree.mapping tkvs) := by simp
            omega
          simp only [reconcile] at hok
          cases hrf : reconcileFields path tkvs dkvs with
          | error e => rw [hrf] at hok; simp at hok
          | ok rkvs =>
            rw [hrf] at hok
            simp only at hok
            cases hfn : firstNotIn (dkvs.map Prod.fst) (tkvs.map Prod.fst) with
            | some k => rw [hfn] at hok; simp at hok
            | none =>
              rw [hfn] at hok
              simp only [Except.ok.injEq] at hok
              subst hok
              obtain ⟨hkeys, hagree⟩ :=
                (ih (sizeOf tkvs) hlt).2.1 path tkvs dkvs rkvs (le_refl _) hrf
              simp only [agreeBytes, Bool.and_eq_true]
              constructor
              · rw [List.all_eq_true]
                intro k hk
                rw [lookupKey_isSome_iff, hkeys]
                exact (firstNotIn_eq_none_iff _ _).mp hfn k hk
              · exact hagree
      | sequence tts =>
        cases d with
        | leaf dv => simp [reconcile] at hok
        | mapping dkvs => simp [reconcile] at hok
        | sequence dts =>
          have hlt : sizeOf tts < n := by
            have hx : sizeOf tts < sizeOf (Tree.sequence tts) := by simp
            omega
          simp only [reconcile] at hok
          cases hrs : reconcileSeq path 0 tts dts with
          | error e => rw [hrs] at hok; simp at hok
          | ok rs =>
            rw [hrs] at hok
            simp only [Except.ok.injEq] at hok
            subst hok
            simp only [agreeBytes]
            exact (ih (sizeOf tts) hlt).2.2 path 0 tts dts rs (le_refl _) hrs
    · intro path tkvs dkvs rkvs hsz hok
      cases tkvs with
      | nil =>
        simp [reconcileFields] at hok
        subst hok
        simp [agreeBytesFields]
      | cons kt rest =>
        obtain ⟨k, t⟩ := kt
        have hlt_t : sizeOf t < n := by
          have hx : sizeOf t < sizeOf ((k, t) :: rest) := by simp <;> omega
          omega
        have hlt_r : sizeOf rest < n := by
          have hx : sizeOf rest < sizeOf ((k, t) :: rest) := by simp <;> omega
          omega
        simp only [reconcileFields] at hok
        cases hl : lookupKey k dkvs with
        | none => rw [hl] at hok; simp at hok
        | some dchild =>
          rw [hl] at hok
          simp only at hok
          cases hrc : reconcile (path ++ [.field k]) t dchild with
          | error e => rw [hrc] at hok; simp at hok
          | ok r =>
            rw [hrc] at hok
            simp only at hok
            cases hrf : reconcileFields path rest dkvs with
            | error e => rw [hrf] at hok; simp at hok
            | ok rs =>
              rw [hrf] at hok
              simp only [Except.ok.injEq] at hok
              subst hok
              obtain ⟨hkeys, hagree⟩ :=
                (ih (sizeOf rest) hlt_r).2.1 path rest dkvs rs (le_refl _) hrf
              have hab : agreeBytes r dchild = true :=
                (ih (sizeOf t) hlt_t).1 (path ++ [.field k]) t dchild r (le_refl _) hrc
              refine ⟨by simp [hkeys], ?_⟩
              simp [agreeBytesFields, hl, hab, hagree]
    · intro path i ts ds rs hsz hok
      cases ts with
      | nil =>
        cases ds with
        | nil =>
          simp [reconcileSeq] at hok
          subst hok
          simp [agreeBytesSeq]
        | cons d drest => simp [reconcileSeq] at hok
      | cons t rest =>
        have hlt_t : sizeOf t < n := by
          have hx : sizeOf t < sizeOf (t :: rest) := by simp <;> omega
          omega
        have hlt_r : sizeOf rest < n := by
          have hx : sizeOf rest < sizeOf (t :: rest) := by simp <;> omega
          omega
        cases ds with
        | nil => simp [reconcileSeq] at hok
        | cons d drest =>
          simp only [reconcileSeq] at hok
          cases hrc : reconcile (path ++ [.index i]) t d with
          | error e => rw [hrc] at hok; simp at hok
          | ok r =>
            rw [hrc] at hok
            simp only at hok
            cases hrs : reconcileSeq path (i + 1) rest drest with
            | error e => rw [hrs] at hok; simp at hok
            | ok rs2 =>
              rw [hrs] at hok
              simp only [Except.ok.injEq] at hok
              subst hok
              have h1 : agreeBytes r d = true :=
                (ih (sizeOf t) hlt_t).1 (path ++ [.index i]) t d r (le_refl _) hrc
              have h2 : agreeBytesSeq rs2 drest = true :=
                (ih (sizeOf rest) hlt_r).2.2 path (i + 1) rest drest rs2 (le_refl _) hrs
              simp [agreeBytesSeq, h1, h2]

theorem reconcile_agreeBytes (path : List PathElem) (t d r : Tree)
    (hok : reconcile path t d = .ok r) : agreeBytes r d = true :=
  (reconcileAgreeAux (sizeOf t)).1 path t d r (le_refl _) hok

theorem exceptIsOk_exists {α : Type} (x : Except CkptError α)
    (h : x.isOk = true) : ∃ a, x = .ok a := by
  cases x with
  | error e => simp [exceptIsOk_error] at h
  | ok a => exact ⟨a, rfl⟩

mutual
/-- Replace every leaf's byte payload through `f`, keeping shapes, dtypes,
keys and structure. -/
def mapLeafBytes (f : List Nat → List Nat) : Tree → Tree
  | .leaf v => .leaf ⟨v.dtype, v.shape, f v.bytes⟩
  | .mapping kvs => .mapping (mapLeafBytesKVs f kvs)
  | .sequence ts => .sequence (mapLeafBytesSeq f ts)

/-- `mapLeafBytes` over mapping children. -/
def mapLeafBytesKVs (f : List Nat → List Nat) :
    List (String × Tree) → List (String × Tree)
  | [] => []
  | (k, t) :: rest => (k, mapLeafBytes f t) :: mapLeafBytesKVs f rest

/-- `mapLeafBytes` over sequence children. -/
def mapLeafBytesSeq (f : List Nat → List Nat) : List Tree → List Tree
  | [] => []
  | t :: rest => mapLeafBytes f t :: mapLeafBytesSeq f rest
end

theorem mapLeafBytesKVs_keys (f : List Nat → List Nat)
    (kvs : List (String × Tree)) :
    (mapLeafBytesKVs f kvs).map Prod.fst = kvs.map Prod.fst := by
  induction kvs with
  | nil => simp [mapLeafBytesKVs]
  | cons kt rest ih =>
    obtain ⟨k, t⟩ := kt
    simp [mapLeafBytesKVs, ih]

theorem lookupKey_mapLeafBytesKVs (f : List Nat → List Nat) (k : String)
    (kvs : List (String × Tree)) :
    lookupKey k (mapLeafBytesKVs f kvs) = (lookupKey k kvs).map (mapLeafBytes f) := by
  induction kvs with
  | nil => simp [mapLeafBytesKVs, lookupKey]
  | cons kt rest ih =>
    obtain ⟨k', t⟩ := kt
    by_cases h : k' = k <;> simp [mapLeafBytesKVs, lookupKey, h, ih]

/-- Target-content insensitivity: reconciliation reads only shape, dtype and
keys of the target, never its leaf bytes. -/
theorem reconcileMapLeafAux (f : List Nat → List Nat) : ∀ n : Nat,
    (∀ (path : List PathElem) (t d : Tree), sizeOf t ≤ n →
      reconcile path (mapLeafBytes f t) d = reconcile path t d) ∧
    (∀ (path : List PathElem) (tkvs dkvs : List (String × Tree)), sizeOf tkvs ≤ n →
      reconcileFields path (mapLeafBytesKVs f tkvs) dkvs =
        reconcileFields path tkvs dkvs) ∧
    (∀ (path : List PathElem) (i : Nat) (ts ds : List Tree), sizeOf ts ≤ n →
      reconcileSeq path i (mapLeafBytesSeq f ts) ds = reconcileSeq path i ts ds) := by
  intro n
  induction n using Nat.strong_induction_on with
  | _ n ih =>
    refine ⟨?_, ?_, ?_⟩
    · intro path t d hsz
      cases t with
      | leaf tv => cases d <;> simp [mapLeafBytes, reconcile]
      | mapping tkvs =>
        have hlt : sizeOf tkvs < n := by
          have hx : sizeOf tkvs < sizeOf (Tree.mapping tkvs) := by simp
          omega
        cases d with
        | leaf dv => simp [mapLeafBytes, reconcile]
        | sequence dts => simp [mapLeafBytes, reconcile]
        | mapping dkvs =>
          simp only [mapLeafBytes, reconcile,
            (ih (sizeOf tkvs) hlt).2.1 path tkvs dkvs (le_refl _),
            mapLeafBytesKVs_keys]
      | sequence tts =>
        have hlt : sizeOf tts < n := by
          have hx : sizeOf tts < sizeOf (Tree.sequence tts) := by simp
          omega
        cases d with
        | leaf dv => simp [mapLeafBytes, reconcile]
        | mapping dkvs => simp [mapLeafBytes, reconcile]
        | sequence dts =>
          simp only [mapLeafBytes, reconcile,
            (ih (sizeOf tts) hlt).2.2 path 0 tts dts (le_refl _)]
    · intro path tkvs dkvs hsz
      cases tkvs with
      | nil => simp [mapLeafBytesKVs, reconcileFields]
      | cons kt rest =>
        obtain ⟨k, t⟩ := kt
        have hlt_t : sizeOf t < n := by
          have hx : sizeOf t < sizeOf ((k, t) :: rest) := by simp <;> omega
          omega
        have hlt_r : sizeOf rest < n := by
          have hx : sizeOf rest < sizeOf ((k, t) :: rest) := by simp <;> omega
          omega
        simp only [mapLeafBytesKVs, reconcileFields,
          (ih (sizeOf t) hlt_t).1 (path ++ [.field k]) t,
          (ih (sizeOf rest) hlt_r).2.1 path rest dkvs (le_refl _)]
        cases lookupKey k dkvs with
        | none => rfl
        | some dchild =>
          simp only [(ih (sizeOf t) hlt_t).1 (path ++ [.field k]) t dchild (le_refl _)]
    · intro path i ts ds hsz
      cases ts with
      | nil => cases ds <;> simp [mapLeafBytesSeq, reconcileSeq]
      | cons t rest =>
        have hlt_t : sizeOf t < n := by
          have hx : sizeOf t < sizeOf (t :: rest) := by simp <;> omega
          omega
        have hlt_r : sizeOf rest < n := by
          have hx : sizeOf rest < sizeOf (t :: rest) := by simp <;> omega
          omega
        cases ds with
        | nil => simp [mapLeafBytesSeq, reconcileSeq]
        | cons d drest =>
          simp only [mapLeafBytesSeq, reconcileSeq,
            (ih (sizeOf t) hlt_t).1 (path ++ [.index i]) t d (le_refl _),
            (ih (sizeOf rest) hlt_r).2.2 path (i + 1) rest drest (le_refl _)]

theorem latest_mem (dir : Dir) (m : Nat × List Nat) (h : latest dir = some m) :
    m ∈ dir := by
  induction dir with
  | nil => simp [latest] at h
  | cons e rest ih =>
    simp only [latest] at h
    cases hl : latest rest with
    | none =>
      rw [hl] at h
      simp at h
      simp [h]
    | some m' =>
      rw [hl] at h
      by_cases hle : m'.1 ≤ e.1
      · simp [hle] at h
        simp [h]
      · simp [hle] at h
        subst h
        exact List.mem_cons_of_mem _ (ih hl)

theorem latest_eq_max (dir : Dir) (s : Nat) (b : List Nat)
    (hnd : (dir.map Prod.fst).Nodup) (hmem : (s, b) ∈ dir)
    (hmax : ∀ x ∈ dir, x.1 ≤ s) : latest dir = some (s, b) := by
  induction dir with
  | nil => simp at hmem
  | cons e rest ih =>
    have hnd_tail : (rest.map Prod.fst).Nodup := by
      simp only [List.map_cons, List.nodup_cons] at hnd
      exact hnd.2
    have hnotin : e.1 ∉ rest.map Prod.fst := by
      simp only [List.map_cons, List.nodup_cons] at hnd
      exact hnd.1
    rcases List.mem_cons.mp hmem with heq | hmem_rest
    · subst heq
      simp only [latest]
      cases hl : latest rest with
      | none => rfl
      | some m =>
        have hm := latest_mem rest m hl
        have : m.1 ≤ s := hmax m (List.mem_cons_of_mem _ hm)
        simp [this]
    · have hmax_rest : ∀ x ∈ rest, x.1 ≤ s := fun x hx =>
        hmax x (List.mem_cons_of_mem _ hx)
      have hl := ih hnd_tail hmem_rest hmax_rest
      simp only [latest, hl]
      have he_mem : s ∈ rest.map Prod.fst :=
        List.mem_map.mpr ⟨(s, b), hmem_rest, rfl⟩
      have hne : e.1 ≠ s := fun h => hnotin (h ▸ he_mem)
      have hlt : e.1 < s := lt_of_le_of_ne (hmax e (List.mem_cons_self _ _)) hne
      have : ¬ s ≤ e.1 := by omega
      simp [this]

/-- The coordinator invariant: the trace is the fully serialized trace of the
completed saves, plus the pending `writeBegin` when a save is in flight. -/
def CoordInv (reqs : List Nat) (s : CoordState) : Prop :=
  match s.inflight with
  | none => ∃ done, done ++ s.pending = reqs ∧ s.trace = canonicalTrace done
  | some r => ∃ done, done ++ r :: s.pending = reqs ∧
      s.trace = canonicalTrace done ++ [Ev.writeBegin r]

theorem canonicalTrace_snoc (done : List Nat) (r : Nat) :
    canonicalTrace (done ++ [r]) =
      canonicalTrace done ++ [Ev.writeBegin r, Ev.writeEnd r] := by
  simp [canonicalTrace]

theorem reaches_inv (reqs : List Nat) (s : CoordState)
    (h : Reaches (initCoord reqs) s) : CoordInv reqs s := by
  induction h with
  | refl => exact ⟨[], by simp [initCoord], by simp [canonicalTrace, initCoord]⟩
  | tail hsteps hstep ih =>
    cases hstep with
    | schedule r rs tr =>
      obtain ⟨done, hdone, htr⟩ := ih
      simp only at hdone htr
      exact ⟨done, hdone, by simp [htr]⟩
    | finish rs r tr =>
      obtain ⟨done, hdone, htr⟩ := ih
      simp only at hdone htr
      refine ⟨done ++ [r], by simpa using hdone, ?_⟩
      show tr ++ [Ev.writeEnd r] = canonicalTrace (done ++ [r])
      rw [canonicalTrace_snoc, htr]
      simp

/-- C1: for every Tree T, deserializing the serialization of T with no target
returns T itself — structurally equal shape with byte-identical leaves. -/
theorem C1_roundtrip_no_target (t : Tree) :
    deserialize (serialize t) none = .ok t := by
  simp [deserialize, rawDeserialize_serialize]

/-- C3: `should_save` returns false exactly when overwrite is false and some
existing step is ≥ the new step, and satisfies the spec's three examples. -/
theorem C3_should_save_correct :
    (∀ (existing : List Nat) (newStep : Nat) (overwrite : Bool),
      should_save existing newStep overwrite = false ↔
        (overwrite = false ∧ ∃ s ∈ existing, newStep ≤ s)) ∧
    should_save [0, 1] 1 false = false ∧
    should_save [0, 1] 2 false = true ∧
    should_save [0, 1] 1 true = true := by
  refine ⟨?_, by decide, by decide, by decide⟩
  intro existing newStep overwrite
  simp only [should_save, Bool.or_eq_false_iff, List.all_eq_false,
    decide_eq_true_eq, not_lt]

/-- C4: `snapshots_to_evict` keeps everything when `keep` is zero or negative
or when nothing exceeds `keep`, and otherwise selects exactly the
oldest-by-step snapshots in excess of `keep`; with the spec's two examples. -/
theorem C4_snapshots_to_evict_correct :
    (∀ (existing : List Nat) (keep : Int), keep ≤ 0 →
      snapshots_to_evict existing keep = []) ∧
    (∀ (existing : List Nat) (keep : Int), (existing.length : Int) ≤ keep →
      snapshots_to_evict existing keep = []) ∧
    (∀ (existing : List Nat) (keep : Int), existing.Nodup → 0 < keep →
      keep < (existing.length : Int) →
      (snapshots_to_evict existing keep).length = existing.length - keep.toNat ∧
      (∀ s ∈ snapshots_to_evict existing keep, s ∈ existing) ∧
      (∀ s ∈ snapshots_to_evict existing keep, ∀ t ∈ existing,
        t ∉ snapshots_to_evict existing keep → s < t)) ∧
    snapshots_to_evict [0, 1, 2, 3] 2 = [0, 1] ∧
    snapshots_to_evict [0, 1, 2] 0 = [] := by
  refine ⟨?_, ?_, ?_, by decide, by decide⟩
  · intro existing keep h
    simp [snapshots_to_evict, h]
  · intro existing keep h
    by_cases h0 : keep ≤ 0
    · simp [snapshots_to_evict, h0]
    · have hlen : (List.insertionSort (· ≤ ·) existing).length = existing.length :=
        List.length_insertionSort _ _
      have hz : (List.insertionSort (· ≤ ·) existing).length - keep.toNat = 0 := by
        omega
      simp [snapshots_to_evict, h0, hz]
      exact Or.inl (by omega)
  · intro existing keep hnd hpos hexc
    have h0 : ¬ keep ≤ 0 := by omega
    have hlen : (List.insertionSort (· ≤ ·) existing).length = existing.length :=
      List.length_insertionSort _ _
    have hperm : (List.insertionSort (· ≤ ·) existing).Perm existing :=
      List.perm_insertionSort _ _
    have hsort : (List.insertionSort (· ≤ ·) existing).Sorted (· ≤ ·) :=
      List.sorted_insertionSort _ _
    have hnd' : (List.insertionSort (· ≤ ·) existing).Nodup :=
      (hperm.nodup_iff).mpr hnd
    have hslt : (List.insertionSort (· ≤ ·) existing).Pairwise (· < ·) :=
      (List.Pairwise.and hsort hnd').imp (fun h => lt_of_le_of_ne h.1 h.2)
    have hev : snapshots_to_evict existing keep =
        (List.insertionSort (· ≤ ·) existing).take
          ((List.insertionSort (· ≤ ·) existing).length - keep.toNat) := by
      simp [snapshots_to_evict, h0]
    refine ⟨?_, ?_, ?_⟩
    · rw [hev, List.length_take]
      omega
    · intro step hs
      rw [hev] at hs
      exact (hperm.mem_iff).mp (List.take_subset _ _ hs)
    · intro step hs u hu hnu
      rw [hev] at hs hnu
      have hu' : u ∈ List.insertionSort (· ≤ ·) existing := (hperm.mem_iff).mpr hu
      have hsplit := List.take_append_drop
        ((List.insertionSort (· ≤ ·) existing).length - keep.toNat)
        (List.insertionSort (· ≤ ·) existing)
      have hdrop : u ∈ (List.insertionSort (· ≤ ·) existing).drop
          ((List.insertionSort (· ≤ ·) existing).length - keep.toNat) := by
        rw [← hsplit] at hu'
        rcases List.mem_append.mp hu' with h | h
        · exact absurd h hnu
        · exact h
      have hpw := List.pairwise_append.mp (by rw [hsplit]; exact hslt)
      exact hpw.2.2 step hs u hdrop

/-- C6: for every Tree T and schema-compatible target S, deserializing
`serialize T` against S succeeds and the result carries T's leaf bytes at
every corresponding path, whatever leaf values S holds. -/
theorem C6_compatible_target_restores_values (S T : Tree)
    (hcompat : compatible S T = true) :
    ∃ R, deserialize (serialize T) (some S) = .ok R ∧ agreeBytes R T = true := by
  have hok : (reconcile [] S T).isOk = true := (reconcile_isOk_iff [] S T).mpr hcompat
  obtain ⟨R, hR⟩ := exceptIsOk_exists _ hok
  exact ⟨R, by simp [deserialize, rawDeserialize_serialize, hR],
    reconcile_agreeBytes [] S T R hR⟩

/-- Witness for C6 at a concrete pair: the target's keys come in a different
order and its leaves hold different bytes, dtype and shape than the data. -/
theorem C6_witness :
    ∃ R, deserialize
        (serialize (.mapping [("b", .sequence [.leaf ⟨2, [1], [42]⟩]),
          ("a", .leaf ⟨1, [2], [5, 6]⟩)]))
        (some (.mapping [("a", .leaf ⟨9, [7], [0, 0]⟩),
          ("b", .sequence [.leaf ⟨0, [], [7]⟩])])) = .ok R ∧
      agreeBytes R (.mapping [("b", .sequence [.leaf ⟨2, [1], [42]⟩]),
        ("a", .leaf ⟨1, [2], [5, 6]⟩)]) = true :=
  C6_compatible_target_restores_values
    (.mapping [("a", .leaf ⟨9, [7], [0, 0]⟩), ("b", .sequence [.leaf ⟨0, [], [7]⟩])])
    (.mapping [("b", .sequence [.leaf ⟨2, [1], [42]⟩]), ("a", .leaf ⟨1, [2], [5, 6]⟩)])
    (by decide)

/-- C7: a decoded leaf reconciled against a target leaf takes the target's
dtype and shape and the data's bytes, and reconciliation is entirely
insensitive to the byte contents of the target's leaves. -/
theorem C7_leaf_coercion :
    (∀ (path : List PathElem) (tv dv : LeafVal),
      reconcile path (.leaf tv) (.leaf dv) =
        .ok (.leaf ⟨tv.dtype, tv.shape, dv.bytes⟩)) ∧
    (∀ (f : List Nat → List Nat) (path : List PathElem) (t d : Tree),
      reconcile path (mapLeafBytes f t) d = reconcile path t d) :=
  ⟨fun _ _ _ => rfl,
   fun f path t d => (reconcileMapLeafAux f (sizeOf t)).1 path t d (le_refl _)⟩

/-- The error of a reconciliation outcome, if any. -/
def errOf : Except CkptError Tree → Option CkptError
  | .error e => some e
  | .ok _ => none

/-- C2: reconciliation succeeds exactly on key-set-identical trees; a
`missingField` error names a full path present in the target and absent from
the data, an `unknownField` error the reverse; the rendered messages are
`missing field <path>` / `unknown field <path>`; and on a concrete tree with
one missing and one unknown key the depth-first-first mismatch
(`model.params.head`) is the one reported. -/
theorem C2_schema_mismatch_errors :
    (∀ S D : Tree, (reconcile [] S D).isOk = true ↔ compatible S D = true) ∧
    (∀ (S D : Tree) (p : List PathElem), wfTree S = true →
      reconcile [] S D = .error (.schemaError .missingField p) →
      (subtreeAt S p).isSome = true ∧ subtreeAt D p = none ∧
        (CkptError.schemaError .missingField p).message =
          "missing field " ++ renderPath p) ∧
    (∀ (S D : Tree) (p : List PathElem), wfTree S = true →
      reconcile [] S D = .error (.schemaError .unknownField p) →
      (subtreeAt D p).isSome = true ∧ subtreeAt S p = none ∧
        (CkptError.schemaError .unknownField p).message =
          "unknown field " ++ renderPath p) ∧
    errOf (reconcile []
      (.mapping [("model", .mapping [("params", .mapping
        [("head", .leaf ⟨0, [], []⟩), ("tail", .leaf ⟨0, [], []⟩)])])])
      (.mapping [("model", .mapping [("params", .mapping
        [("tail", .leaf ⟨0, [], []⟩), ("extra", .leaf ⟨0, [], []⟩)])])])) =
      some (.schemaError .missingField
        [.field "model", .field "params", .field "head"]) ∧
    (CkptError.schemaError .missingField
      [.field "model", .field "params", .field "head"]).message =
      "missing field model.params.head" := by
  refine ⟨fun S D => reconcile_isOk_iff [] S D, ?_, ?_, by decide, by decide⟩
  · intro S D p hwf herr
    obtain ⟨suffix, hp, hm, _⟩ :=
      reconcile_error_sound [] S D .missingField p hwf herr
    rw [List.nil_append] at hp
    subst hp
    obtain ⟨h1, h2⟩ := hm rfl
    exact ⟨h1, h2, rfl⟩
  · intro S D p hwf herr
    obtain ⟨suffix, hp, _, hu⟩ :=
      reconcile_error_sound [] S D .unknownField p hwf herr
    rw [List.nil_append] at hp
    subst hp
    obtain ⟨h1, h2⟩ := hu rfl
    exact ⟨h1, h2, rfl⟩

/-- Witness for C2 at a concrete mismatch: the reported missing-field path
exists in the target and not in the data. -/
theorem C2_witness :
    (subtreeAt (.mapping [("x", .leaf ⟨0, [], []⟩)]) [.field "x"]).isSome = true ∧
    subtreeAt (.mapping ([] : List (String × Tree))) [.field "x"] = none ∧
    (CkptError.schemaError .missingField [.field "x"]).message =
      "missing field " ++ renderPath [.field "x"] :=
  C2_schema_mismatch_errors.2.1
    (.mapping [("x", .leaf ⟨0, [], []⟩)])
    (.mapping ([] : List (String × Tree)))
    [.field "x"] (by decide) rfl

/-- Witness for C4 at concrete inputs: a negative keep keeps all, and with
keep 2 over four snapshots exactly two oldest are selected. -/
theorem C4_witness :
    snapshots_to_evict [5, 7] (-1) = [] ∧
    (snapshots_to_evict [0, 1, 2, 3] 2).length = 4 - (2 : Int).toNat :=
  ⟨C4_snapshots_to_evict_correct.1 [5, 7] (-1) (by decide),
   (C4_snapshots_to_evict_correct.2.2.1 [0, 1, 2, 3] 2
     (by decide) (by decide) (by decide)).1⟩

/-- C9: when the retention policy accepts a save, the save returns the
written snapshot's path no matter which deletions fail during eviction, the
outcome equals that of a failure-free run, and every failed deletion is
downgraded to a logged warning naming the snapshot. -/
theorem C9_eviction_failure_nonfatal (dirName pfx : String) (dir : Dir)
    (tree : Tree) (step : Nat) (overwrite : Bool) (keep : Int)
    (deleteFails : Nat → Bool)
    (hacc : should_save (listSteps dir) step overwrite = true) :
    (save dirName pfx dir tree step overwrite keep deleteFails).outcome =
      some (pathFor dirName pfx step) ∧
    (save dirName pfx dir tree step overwrite keep deleteFails).outcome =
      (save dirName pfx dir tree step overwrite keep (fun _ => false)).outcome ∧
    (∀ s ∈ snapshots_to_evict
        (listSteps (dir.filter (fun e => e.1 ≠ step) ++ [(step, serialize tree)]))
        keep,
      deleteFails s = true →
      ("failed to delete snapshot " ++ toString s) ∈
        (save dirName pfx dir tree step overwrite keep deleteFails).warnings) := by
  refine ⟨by simp [save, hacc], by simp [save, hacc], ?_⟩
  intro s hs hf
  simp only [save, hacc, if_pos]
  exact List.mem_map.mpr ⟨s, List.mem_filter.mpr ⟨hs, by simp [hf]⟩, rfl⟩

/-- Witness for C9 at a concrete save where the single eviction deletion
fails: the save still returns the path and logs the warning. -/
theorem C9_witness :
    (save "d" "c_" [(0, [])] (.leaf ⟨0, [], []⟩) 1 false 1 (fun _ => true)).outcome =
      some (pathFor "d" "c_" 1) ∧
    ("failed to delete snapshot " ++ toString 0) ∈
      (save "d" "c_" [(0, [])] (.leaf ⟨0, [], []⟩) 1 false 1 (fun _ => true)).warnings :=
  ⟨(C9_eviction_failure_nonfatal "d" "c_" [(0, [])] (.leaf ⟨0, [], []⟩) 1 false 1
      (fun _ => true) (by decide)).1,
   (C9_eviction_failure_nonfatal "d" "c_" [(0, [])] (.leaf ⟨0, [], []⟩) 1 false 1
      (fun _ => true) (by decide)).2.2 0 (by decide) rfl⟩

/-- C10: an accepted save returns the checkpoint directory joined with the
prefix and the decimal step, and with the default stem a step-0 save under
`tmp/flax-checkpointing` returns `tmp/flax-checkpointing/checkpoint_0`. -/
theorem C10_save_returns_step_path (dirName pfx : String) (dir : Dir)
    (tree : Tree) (step : Nat) (overwrite : Bool) (keep : Int)
    (deleteFails : Nat → Bool)
    (hacc : should_save (listSteps dir) step overwrite = true) :
    (save dirName pfx dir tree step overwrite keep deleteFails).outcome =
      some (dirName ++ "/" ++ pfx ++ toString step) ∧
    (save "tmp/flax-checkpointing" defaultStem [] tree 0 false 2
      deleteFails).outcome = some "tmp/flax-checkpointing/checkpoint_0" := by
  constructor
  · simp [save, hacc, pathFor]
  · have hacc0 : should_save (listSteps []) 0 false = true := by decide
    simp only [save, hacc0, if_pos]
    rfl

/-- Witness for C10 at a concrete accepted save. -/
theorem C10_witness :
    (save "a" "ck_" [] (.leaf ⟨0, [], []⟩) 3 false 1 (fun _ => false)).outcome =
      some ("a" ++ "/" ++ "ck_" ++ toString 3) :=
  (C10_save_returns_step_path "a" "ck_" [] (.leaf ⟨0, [], []⟩) 3 false 1
    (fun _ => false) (by decide)).1

/-- C8: restore with no step returns the maximum-step snapshot's tree and
fails with `NotFoundError` on an empty directory; in particular, after
facade saves at steps 0, 2 and 3 with keep 2, restoring with no step
returns the tree saved at step 3. -/
theorem C8_restore_latest :
    (∀ target : Option Tree, restore [] none target = .error .notFoundError) ∧
    (∀ (saved : List (Nat × Tree)) (s : Nat) (t : Tree),
      (saved.map Prod.fst).Nodup → (s, t) ∈ saved → (∀ x ∈ saved, x.1 ≤ s) →
      restore (saved.map (fun e => (e.1, serialize e.2))) none none = .ok t) ∧
    (∀ T0 T2 T3 : Tree,
      restore (save "tmp/flax-checkpointing" defaultStem
        ((save "tmp/flax-checkpointing" defaultStem
          ((save "tmp/flax-checkpointing" defaultStem [] T0 0 false 2
            (fun _ => false)).dir) T2 2 false 2 (fun _ => false)).dir)
        T3 3 false 2 (fun _ => false)).dir none none = .ok T3) := by
  refine ⟨fun target => rfl, ?_, ?_⟩
  · intro saved s t hnd hmem hmax
    have hnd' : ((saved.map (fun e => (e.1, serialize e.2))).map Prod.fst).Nodup := by
      simpa [List.map_map, Function.comp] using hnd
    have hmem' : (s, serialize t) ∈ saved.map (fun e => (e.1, serialize e.2)) :=
      List.mem_map.mpr ⟨(s, t), hmem, rfl⟩
    have hmax' : ∀ x ∈ saved.map (fun e => (e.1, serialize e.2)), x.1 ≤ s := by
      intro x hx
      obtain ⟨e, he, rfl⟩ := List.mem_map.mp hx
      exact hmax e he
    have hl := latest_eq_max _ s (serialize t) hnd' hmem' hmax'
    simp [restore, hl, deserialize, rawDeserialize_serialize]
  · intro T0 T2 T3
    have h1 : (save "tmp/flax-checkpointing" defaultStem [] T0 0 false 2
        (fun _ => false)).dir = [(0, serialize T0)] := rfl
    have h2 : (save "tmp/flax-checkpointing" defaultStem [(0, serialize T0)]
        T2 2 false 2 (fun _ => false)).dir =
        [(0, serialize T0), (2, serialize T2)] := rfl
    have h3 : (save "tmp/flax-checkpointing" defaultStem
        [(0, serialize T0), (2, serialize T2)] T3 3 false 2
        (fun _ => false)).dir = [(2, serialize T2), (3, serialize T3)] := rfl
    rw [h1, h2, h3]
    have hl : latest [(2, serialize T2), (3, serialize T3)] =
        some (3, serialize T3) := rfl
    simp [restore, hl, deserialize, rawDeserialize_serialize]

/-- Witness for C8 at a concrete one-snapshot directory. -/
theorem C8_witness :
    restore ([(1, Tree.leaf ⟨0, [], []⟩)].map (fun e => (e.1, serialize e.2)))
      none none = .ok (Tree.leaf ⟨0, [], []⟩) :=
  C8_restore_latest.2.1 [(1, Tree.leaf ⟨0, [], []⟩)] 1 (Tree.leaf ⟨0, [], []⟩)
    (by decide) (List.mem_singleton.mpr rfl)
    (fun x hx => by rw [List.mem_singleton.mp hx])

/-- C5: for two sequential save_async calls A then B on one coordinator, in
every reachable interleaving B's write begins only after A's write has
ended — the forced wait_previous() serializes the writes. -/
theorem C5_async_saves_serialized (a b : Nat) (s : CoordState) (hab : a ≠ b)
    (hr : Reaches (initCoord [a, b]) s) :
    ∀ i : Nat, s.trace[i]? = some (Ev.writeBegin b) →
      ∃ j : Nat, j < i ∧ s.trace[j]? = some (Ev.writeEnd a) := by
  have hinv := reaches_inv [a, b] s hr
  intro i hi
  cases hfl : s.inflight with
  | none =>
    rw [CoordInv, hfl] at hinv
    obtain ⟨done, hdone, htr⟩ := hinv
    rcases done with _ | ⟨x, done'⟩
    · rw [htr] at hi
      simp [canonicalTrace] at hi
    · rcases done' with _ | ⟨y, done''⟩
      · simp only [List.cons_append, List.nil_append, List.cons.injEq] at hdone
        obtain ⟨hxa, -⟩ := hdone
        subst hxa
        rw [htr] at hi
        rcases i with _ | _ | i <;> simp [canonicalTrace] at hi
        omega
      · rcases done'' with _ | ⟨z, rest⟩
        · simp only [List.cons_append, List.nil_append, List.cons.injEq] at hdone
          obtain ⟨hxa, hyb, -⟩ := hdone
          subst hxa; subst hyb
          rw [htr] at hi ⊢
          rcases i with _ | _ | _ | _ | i <;> simp [canonicalTrace] at hi
          · omega
          · refine ⟨1, by omega, ?_⟩
            simp [canonicalTrace]
        · exfalso
          have hlen := congrArg List.length hdone
          simp [List.length_append] at hlen
  | some r =>
    rw [CoordInv, hfl] at hinv
    obtain ⟨done, hdone, htr⟩ := hinv
    rcases done with _ | ⟨x, done'⟩
    · simp only [List.nil_append, List.cons.injEq] at hdone
      obtain ⟨hra, -⟩ := hdone
      subst hra
      rw [htr] at hi
      rcases i with _ | i <;> simp [canonicalTrace] at hi
      omega
    · rcases done' with _ | ⟨y, done''⟩
      · simp only [List.cons_append, List.nil_append, List.cons.injEq] at hdone
        obtain ⟨hxa, hrb, -⟩ := hdone
        subst hxa
        subst hrb
        rw [htr] at hi ⊢
        rcases i with _ | _ | _ | i <;> simp [canonicalTrace] at hi
        · omega
        · refine ⟨1, by omega, ?_⟩
          simp [canonicalTrace]
      · exfalso
        have hlen := congrArg List.length hdone
        simp [List.length_append] at hlen

/-- Witness for C5: the completed two-save run, with B's write at index 2
preceded by A's write-end at index 1. -/
theorem C5_witness :
    ∃ j : Nat, j < 2 ∧
      (CoordState.mk [] none [Ev.writeBegin 0, Ev.writeEnd 0, Ev.writeBegin 1,
        Ev.writeEnd 1]).trace[j]? = some (Ev.writeEnd 0) := by
  have r1 : Reaches (initCoord [0, 1]) ⟨[1], some 0, [Ev.writeBegin 0]⟩ :=
    Relation.ReflTransGen.single (CoordStep.schedule 0 [1] [])
  have r2 : Reaches (initCoord [0, 1])
      ⟨[1], none, [Ev.writeBegin 0, Ev.writeEnd 0]⟩ :=
    r1.tail (CoordStep.finish [1] 0 [Ev.writeBegin 0])
  have r3 : Reaches (initCoord [0, 1])
      ⟨[], some 1, [Ev.writeBegin 0, Ev.writeEnd 0, Ev.writeBegin 1]⟩ :=
    r2.tail (CoordStep.schedule 1 [] [Ev.writeBegin 0, Ev.writeEnd 0])
  have hreach : Reaches (initCoord [0, 1])
      ⟨[], none, [Ev.writeBegin 0, Ev.writeEnd 0, Ev.writeBegin 1, Ev.writeEnd 1]⟩ :=
    r3.tail (CoordStep.finish [] 1 [Ev.writeBegin 0, Ev.writeEnd 0, Ev.writeBegin 1])
  exact C5_async_saves_serialized 0 1 _ (by decide) hreach 2 rfl

end Ckpt
